import Mathlib

/-
  Verification of the flashcards spaced-repetition core.

  Shallow embedding conventions:
  * JS numbers that hold fractional values (ease factors, similarities) are
    modelled as rationals; integral quantities (intervals, repetitions,
    quality ratings, timestamps in days) as integers.
  * Strings are modelled as lists of characters; lowercasing uses the ASCII
    Char.toLower, which agrees with JS toLowerCase on the ASCII inputs of
    interest.
  * Randomness is passed explicitly: the Fisher-Yates loop receives the list
    of drawn indices, and the random-comparator sort pattern receives the
    stream of comparator signs, one boolean per comparator call.
  * Mutation is modelled by explicit state passing; arrays live in a heap
    (a list of arrays) so that freshness and frame conditions are statable.
-/

/-- JS Math.round rounds half toward positive infinity: round x = floor (x + 1/2). -/
def jsRound (x : ℚ) : ℤ := (x + 1/2).floor

/-- Card snapshot, with the fields the scheduling and study code reads
(from src/types/index.ts).  Dates are day-resolution integer timestamps. -/
structure Card where
  id : ℕ
  front : List Char
  back : List Char
  easeFactor : ℚ
  interval : ℤ
  repetitions : ℤ
  nextReviewDate : ℤ
  lastReviewDate : Option ℤ
  createdAt : ℤ
deriving DecidableEq, Repr

instance : Inhabited Card := ⟨⟨0, [], [], 5/2, 0, 0, 0, none, 0⟩⟩

/-- Result record of SpacedRepetitionService.calculateNextReview. -/
structure SM2Result where
  easeFactor : ℚ
  interval : ℤ
  repetitions : ℤ
  nextReviewDate : ℤ
deriving DecidableEq, Repr

/-- SpacedRepetitionService.calculateNextReview.  The current wall-clock day
is passed explicitly as `now`; the source reads it via new Date(). -/
def calculateNextReview (card : Card) (quality : ℤ) (now : ℤ) : SM2Result :=
  let easeFactor := card.easeFactor
  let interval := card.interval
  let repetitions := card.repetitions
  let (repetitions, interval) :=
    if quality < 3 then
      (0, 0)
    else
      (repetitions + 1,
       if repetitions = 0 then 1
       else if repetitions = 1 then 6
       else jsRound ((interval : ℚ) * easeFactor))
  let easeFactor :=
    easeFactor + (1/10 - (5 - (quality : ℚ)) * (8/100 + (5 - (quality : ℚ)) * (2/100)))
  let easeFactor := if easeFactor < 13/10 then 13/10 else easeFactor
  { easeFactor := easeFactor
    interval := interval
    repetitions := repetitions
    nextReviewDate := now + interval }

/-- SpacedRepetitionService.isDue: nextReviewDate <= now. -/
def isDue (card : Card) (now : ℤ) : Bool := card.nextReviewDate ≤ now

/-- SpacedRepetitionService.getDueCards. -/
def getDueCards (cards : List Card) (now : ℤ) : List Card :=
  cards.filter (fun card => isDue card now)

/-- SpacedRepetitionService.getUnknownCards: repetitions == 0 and no lastReviewDate. -/
def getUnknownCards (cards : List Card) : List Card :=
  cards.filter (fun card => card.repetitions = 0 && card.lastReviewDate = none)

/-- Stable insertion of `x` after every already-placed element `y` with
comparator value cmp y x <= 0, modelling the placement a stable
ECMAScript Array.sort gives a later-input element. -/
def insertSorted (cmp : α → α → ℚ) (x : α) : List α → List α
  | [] => [x]
  | y :: ys => if cmp y x ≤ 0 then y :: insertSorted cmp x ys else x :: y :: ys

/-- Stable sort by a numeric comparator, modelling ECMAScript
Array.prototype.sort with a consistent comparator (stable since ES2019):
elements are inserted in input order, each after all its comparator-ties. -/
def stableSort (cmp : α → α → ℚ) (l : List α) : List α :=
  l.foldl (fun acc x => insertSorted cmp x acc) []

/-- SpacedRepetitionService.sortByDifficulty: copies the array and sorts the
copy by the score easeFactor * (repetitions + 1), ascending or descending. -/
def sortByDifficulty (cards : List Card) (ascending : Bool) : List Card :=
  stableSort (fun a b =>
    let difficultyA := a.easeFactor * ((a.repetitions : ℚ) + 1)
    let difficultyB := b.easeFactor * ((b.repetitions : ℚ) + 1)
    if ascending then difficultyA - difficultyB else difficultyB - difficultyA) cards

/-- Swap of two positions of a list; out-of-range indices leave the list
unchanged (in the shuffle both indices are always in range). -/
def listSwap (l : List α) (i j : ℕ) : List α :=
  match l[i]?, l[j]? with
  | some a, some b => (l.set i b).set j a
  | _, _ => l

/-- The Fisher-Yates loop of getStudyOrder, mode random:
for (let i = length - 1; i > 0; i--) swap positions i and j, where j is the
drawn index floor(random * (i + 1)), supplied here as the list `js`. -/
def fyLoop (l : List α) : ℕ → List ℕ → List α
  | 0, _ => l
  | _ + 1, [] => l
  | i + 1, j :: js => fyLoop (listSwap l (i + 1) j) i js

/-- Fisher-Yates shuffle of a copied array, as in getStudyOrder mode random. -/
def fisherYates (l : List α) (js : List ℕ) : List α :=
  fyLoop l (l.length - 1) js

/-- A drawn-index list is valid for a run of the loop starting at index `i`
when it has exactly one entry per iteration and each entry j drawn at
iteration index k satisfies j <= k (since floor(random * (k+1)) < k+1). -/
def validChoices : ℕ → List ℕ → Bool
  | 0, [] => true
  | 0, _ :: _ => false
  | _ + 1, [] => false
  | i + 1, j :: js => j ≤ i + 1 && validChoices i js

/-- StudyMode union type from src/types/index.ts. -/
inductive StudyMode
  | due | difficult | unknown | random | sequential
deriving DecidableEq, Repr

/-- SpacedRepetitionService.getStudyOrder.  `now` is the wall clock used by
isDue, and `js` the drawn-index list consumed by the random mode. -/
def getStudyOrder (cards : List Card) (mode : StudyMode) (now : ℤ) (js : List ℕ) :
    List Card :=
  match mode with
  | .due =>
      stableSort (fun a b =>
        if isDue a now && !isDue b now then -1
        else if !isDue a now && isDue b now then 1
        else ((a.nextReviewDate - b.nextReviewDate : ℤ) : ℚ)) cards
  | .difficult => sortByDifficulty cards false
  | .unknown =>
      stableSort (fun a b => ((a.createdAt - b.createdAt : ℤ) : ℚ))
        (getUnknownCards cards) ++
      cards.filter (fun card => card.repetitions > 0 || card.lastReviewDate.isSome)
  | .random => fisherYates cards js
  | .sequential =>
      stableSort (fun a b => ((a.createdAt - b.createdAt : ℤ) : ℚ)) cards

/-- C1 sanity example card: repetitions 2, interval 6, ease factor 2.5. -/
def matureCard : Card :=
  { id := 0, front := [], back := [], easeFactor := 5/2, interval := 6,
    repetitions := 2, nextReviewDate := 0, lastReviewDate := none, createdAt := 0 }

/-- Fresh card used in concrete evaluations: never reviewed, default ease 2.5. -/
def freshCard : Card :=
  { id := 1, front := [], back := [], easeFactor := 5/2, interval := 0,
    repetitions := 0, nextReviewDate := 0, lastReviewDate := none, createdAt := 0 }

unseal Rat.mul Rat.add Rat.sub Rat.inv in
/-- C1: for every card and quality in 0..5, calculateNextReview resets
repetitions and interval to 0 when quality < 3, and otherwise increments
repetitions and sets the interval to 1 / 6 / round(interval * easeFactor)
according to the previous repetition count; in particular a card with
repetitions 2, interval 6 and ease factor 2.5 graded 4 gets interval 15. -/
theorem calculateNextReview_schedule (card : Card) (quality now : ℤ)
    (hq0 : 0 ≤ quality) (hq5 : quality ≤ 5) :
    (quality < 3 →
      (calculateNextReview card quality now).repetitions = 0 ∧
      (calculateNextReview card quality now).interval = 0) ∧
    (3 ≤ quality →
      (calculateNextReview card quality now).repetitions = card.repetitions + 1 ∧
      (calculateNextReview card quality now).interval =
        (if card.repetitions = 0 then 1
         else if card.repetitions = 1 then 6
         else jsRound ((card.interval : ℚ) * card.easeFactor))) ∧
    (calculateNextReview matureCard 4 0).interval = 15 := by
  refine ⟨fun hlt => ?_, fun hge => ?_, by decide⟩
  · simp [calculateNextReview, hlt]
  · have hnlt : ¬ quality < 3 := by omega
    simp [calculateNextReview, hnlt]

unseal Rat.mul Rat.add Rat.sub Rat.inv in
/-- Witness for C1 at the concrete inputs of the claim. -/
theorem calculateNextReview_schedule_witness :
    (0:ℤ) ≤ 4 ∧ (4:ℤ) ≤ 5 ∧ (calculateNextReview matureCard 4 0).interval = 15 :=
  ⟨by decide, by decide,
    (calculateNextReview_schedule matureCard 4 0 (by decide) (by decide)).2.2⟩

/-- C2: the ease-factor update is applied on every call, success or failure,
and then clamped to a floor of 1.3 with no ceiling: the returned ease factor
is exactly the maximum of 1.3 and the updated value, hence always >= 1.3. -/
theorem calculateNextReview_easeFactor_spec (card : Card) (quality now : ℤ)
    (hef : 13/10 ≤ card.easeFactor) (hq0 : 0 ≤ quality) (hq5 : quality ≤ 5) :
    (calculateNextReview card quality now).easeFactor =
      max (13/10)
        (card.easeFactor +
          (1/10 - (5 - (quality:ℚ)) * (8/100 + (5 - (quality:ℚ)) * (2/100)))) ∧
    13/10 ≤ (calculateNextReview card quality now).easeFactor := by
  have hmain : (calculateNextReview card quality now).easeFactor =
      max (13/10)
        (card.easeFactor +
          (1/10 - (5 - (quality:ℚ)) * (8/100 + (5 - (quality:ℚ)) * (2/100)))) := by
    simp only [calculateNextReview]
    rcases lt_or_le (card.easeFactor +
        (1/10 - (5 - (quality:ℚ)) * (8/100 + (5 - (quality:ℚ)) * (2/100)))) (13/10) with h | h
    · rw [if_pos h, max_eq_left h.le]
    · rw [if_neg (not_lt.mpr h), max_eq_right h]
  exact ⟨hmain, hmain ▸ le_max_left _ _⟩

unseal Rat.mul Rat.add Rat.sub Rat.inv in
/-- Witness for C2 at quality 0 on a card at the ease floor. -/
theorem calculateNextReview_easeFactor_spec_witness :
    (13/10 : ℚ) ≤ 13/10 ∧ (0:ℤ) ≤ 0 ∧ (0:ℤ) ≤ 5 ∧
    13/10 ≤ (calculateNextReview
      { freshCard with easeFactor := 13/10 } 0 0).easeFactor :=
  ⟨by decide, by decide, by decide,
    (calculateNextReview_easeFactor_spec
      { freshCard with easeFactor := 13/10 } 0 0
      (by decide) (by decide) (by decide)).2⟩

unseal Rat.mul Rat.add Rat.sub Rat.inv in
/-- C6 counterexample: called with quality 6 (outside 0..5) the code does not
reject; it runs the ordinary success-branch arithmetic, returning repetitions
1, interval 1 and ease factor 2.5 + 0.16 = 133/50 for a fresh card. -/
theorem calculateNextReview_quality6_proceeds :
    calculateNextReview freshCard 6 0 =
      { easeFactor := 133/50, interval := 1, repetitions := 1, nextReviewDate := 1 } := by
  decide

unseal Rat.mul Rat.add Rat.sub Rat.inv in
/-- C6 amended: calculateNextReview performs no range check on the quality
rating; every quality outside 0..5 (negative or above 5) is processed by
the same arithmetic as an in-range one - below 3 the reset branch, at 3 or
above the success branch - with the ease-factor update applied at the
out-of-range value; the call is never rejected with an input error and the
quality is never clamped. -/
theorem calculateNextReview_no_input_check (card : Card) (quality now : ℤ)
    (h : quality < 0 ∨ 5 < quality) :
    calculateNextReview card quality now =
      { easeFactor :=
          max (13/10)
            (card.easeFactor +
              (1/10 - (5 - (quality:ℚ)) * (8/100 + (5 - (quality:ℚ)) * (2/100)))),
        interval :=
          (if quality < 3 then 0
           else if card.repetitions = 0 then 1
           else if card.repetitions = 1 then 6
           else jsRound ((card.interval : ℚ) * card.easeFactor)),
        repetitions := (if quality < 3 then 0 else card.repetitions + 1),
        nextReviewDate := now +
          (if quality < 3 then 0
           else if card.repetitions = 0 then 1
           else if card.repetitions = 1 then 6
           else jsRound ((card.interval : ℚ) * card.easeFactor)) } := by
  have hmax : ∀ x : ℚ, (if x < 13/10 then (13/10 : ℚ) else x) = max (13/10) x := by
    intro x
    rcases lt_or_le x (13/10) with h' | h'
    · rw [if_pos h', max_eq_left h'.le]
    · rw [if_neg (not_lt.mpr h'), max_eq_right h']
  by_cases hq : quality < 3
  · simp [calculateNextReview, hq, hmax]
  · simp [calculateNextReview, hq, hmax]

/-- Witness for the C6 amended claim at quality 6 (above the range) and
quality -1 (below the range). -/
theorem calculateNextReview_no_input_check_witness :
    ((6:ℤ) < 0 ∨ (5:ℤ) < 6) ∧ ((-1:ℤ) < 0 ∨ (5:ℤ) < -1) ∧
    calculateNextReview freshCard 6 0 =
      { easeFactor :=
          max (13/10)
            (freshCard.easeFactor +
              (1/10 - (5 - (6:ℚ)) * (8/100 + (5 - (6:ℚ)) * (2/100)))),
        interval := 1, repetitions := 1, nextReviewDate := 1 } ∧
    calculateNextReview freshCard (-1) 0 =
      { easeFactor :=
          max (13/10)
            (freshCard.easeFactor +
              (1/10 - (5 - (-1:ℚ)) * (8/100 + (5 - (-1:ℚ)) * (2/100)))),
        interval := 0, repetitions := 0, nextReviewDate := 0 } :=
  ⟨by decide, by decide,
    by
      have h := calculateNextReview_no_input_check freshCard 6 0 (by decide)
      simpa [freshCard] using h,
    by
      have h := calculateNextReview_no_input_check freshCard (-1) 0 (by decide)
      simpa [freshCard] using h⟩

/-- QuestionType union type from src/types/index.ts. -/
inductive QuestionType
  | multipleChoice | written | flashcard
deriving DecidableEq, Repr

/-- Session-scoped per-card progress for learn mode (interface CardProgress
in src/pages/Study.tsx; the card snapshot field is omitted as the update
logic never reads it). -/
structure CardProgress where
  correctCount : ℕ
  incorrectCount : ℕ
  currentQuestionType : QuestionType
deriving DecidableEq, Repr

/-- Initial progress assigned to every card by prepareStudyCards in learn
mode: counts 0, question type multiple-choice. -/
def initialCardProgress : CardProgress :=
  { correctCount := 0, incorrectCount := 0, currentQuestionType := .multipleChoice }

/-- updateLearnProgress from src/pages/Study.tsx: on a correct answer the
correct count is incremented and, once it is >= 2, the question type is
escalated one level; on an incorrect answer the incorrect count is
incremented and, once it is >= 2, the question type is de-escalated one
level and the incorrect count reset to 0. -/
def updateLearnProgress (progress : CardProgress) (isCorrect : Bool) : CardProgress :=
  if isCorrect then
    let correctCount := progress.correctCount + 1
    let questionType :=
      if 2 ≤ correctCount then
        if progress.currentQuestionType = .multipleChoice then .flashcard
        else if progress.currentQuestionType = .flashcard then .written
        else progress.currentQuestionType
      else progress.currentQuestionType
    { progress with correctCount := correctCount, currentQuestionType := questionType }
  else
    let incorrectCount := progress.incorrectCount + 1
    if 2 ≤ incorrectCount then
      let questionType :=
        if progress.currentQuestionType = .written then .flashcard
        else if progress.currentQuestionType = .flashcard then .multipleChoice
        else progress.currentQuestionType
      { progress with incorrectCount := 0, currentQuestionType := questionType }
    else
      { progress with incorrectCount := incorrectCount }

/-- Fold of updateLearnProgress over a sequence of answer verdicts. -/
def applyAnswers (progress : CardProgress) (answers : List Bool) : CardProgress :=
  answers.foldl updateLearnProgress progress

/-- One-level escalation multiple-choice to flashcard to written, written
terminal (the success branch of updateLearnProgress). -/
def escalateQT : QuestionType → QuestionType
  | .multipleChoice => .flashcard
  | .flashcard => .written
  | .written => .written

/-- One-level de-escalation written to flashcard to multiple-choice,
multiple-choice terminal (the failure branch of updateLearnProgress). -/
def deescalateQT : QuestionType → QuestionType
  | .written => .flashcard
  | .flashcard => .multipleChoice
  | .multipleChoice => .multipleChoice

/-- C3 counterexample: a learn-mode card escalated to flashcard by two
correct answers does NOT need two more correct answers for written; the
cumulative correct count is never reset, so the third consecutive correct
answer already escalates flashcard to written. -/
theorem learnProgress_third_correct_escalates :
    applyAnswers initialCardProgress [true, true] =
      { correctCount := 2, incorrectCount := 0, currentQuestionType := .flashcard } ∧
    applyAnswers initialCardProgress [true, true, true] =
      { correctCount := 3, incorrectCount := 0, currentQuestionType := .written } := by
  constructor <;> rfl

/-- C3 amended: every learn-mode card starts at multiple-choice with both
counts 0.  A correct answer increments the cumulative correct count (never
reset) and escalates one level whenever that count is >= 2, so the first
escalation takes two correct answers but each further correct answer
escalates again immediately.  An incorrect answer increments the incorrect
count; when it reaches 2 the card de-escalates one level and the incorrect
count resets to 0.  The counts are cumulative totals, not consecutive
streaks. -/
theorem learnProgress_characterization :
    initialCardProgress =
      { correctCount := 0, incorrectCount := 0, currentQuestionType := .multipleChoice } ∧
    (∀ progress : CardProgress,
      updateLearnProgress progress true =
        { correctCount := progress.correctCount + 1,
          incorrectCount := progress.incorrectCount,
          currentQuestionType :=
            if 2 ≤ progress.correctCount + 1 then escalateQT progress.currentQuestionType
            else progress.currentQuestionType }) ∧
    (∀ progress : CardProgress,
      updateLearnProgress progress false =
        if 2 ≤ progress.incorrectCount + 1 then
          { correctCount := progress.correctCount,
            incorrectCount := 0,
            currentQuestionType := deescalateQT progress.currentQuestionType }
        else
          { correctCount := progress.correctCount,
            incorrectCount := progress.incorrectCount + 1,
            currentQuestionType := progress.currentQuestionType }) ∧
    applyAnswers initialCardProgress [true, true] =
      { correctCount := 2, incorrectCount := 0, currentQuestionType := .flashcard } ∧
    applyAnswers initialCardProgress [true, true, true] =
      { correctCount := 3, incorrectCount := 0, currentQuestionType := .written } ∧
    applyAnswers ⟨0, 0, .written⟩ [false, false] =
      { correctCount := 0, incorrectCount := 0, currentQuestionType := .flashcard } := by
  refine ⟨rfl, fun progress => ?_, fun progress => ?_, rfl, rfl, rfl⟩
  · cases h : progress.currentQuestionType <;>
      simp [updateLearnProgress, escalateQT, h] <;> split <;> rfl
  · cases h : progress.currentQuestionType <;>
      simp [updateLearnProgress, deescalateQT, h] <;> split <;> rfl

/-- Match-mode pair built by initializeMatchMode in src/pages/Study.tsx. -/
structure MatchPair where
  front : List Char
  back : List Char
  cardId : ℕ
deriving DecidableEq, Repr

instance : Inhabited MatchPair := ⟨⟨[], [], 0⟩⟩

/-- The comparison checkMatch performs on a selected front tile and back
tile: matchPairs[frontIndex].back === matchPairs[backIndex].back. -/
def checkMatchIsMatch (pairs : List MatchPair) (frontIndex backIndex : ℕ) : Bool :=
  (pairs.getD frontIndex default).back = (pairs.getD backIndex default).back

/-- Two distinct cards that share identical back text. -/
def duplicateBackPairs : List MatchPair :=
  [ { front := "q1".data, back := "same".data, cardId := 10 },
    { front := "q2".data, back := "same".data, cardId := 11 } ]

/-- C4 counterexample: with two distinct cards whose back text is identical,
selecting the front tile of pair 0 and the back tile of pair 1 is judged a
match although the tiles refer to different card pairs, so the comparison is
not by underlying pair index. -/
theorem checkMatch_cross_pair_match :
    checkMatchIsMatch duplicateBackPairs 0 1 = true ∧ (0 : ℕ) ≠ 1 := by
  constructor <;> decide

/-- C4 amended: checkMatch judges a selected front tile and back tile by
comparing back TEXT, not pair index: the comparison succeeds exactly when
the front tile's pair and the back tile's pair carry equal back text.  When
all back texts in the board are pairwise distinct this coincides with
referring to the same pair, but two distinct cards with identical back text
also cross-match. -/
theorem checkMatch_by_back_text (pairs : List MatchPair) (frontIndex backIndex : ℕ)
    (hf : frontIndex < pairs.length) (hb : backIndex < pairs.length) :
    (checkMatchIsMatch pairs frontIndex backIndex = true ↔
      (pairs.getD frontIndex default).back = (pairs.getD backIndex default).back) ∧
    ((pairs.map MatchPair.back).Nodup →
      (checkMatchIsMatch pairs frontIndex backIndex = true ↔ frontIndex = backIndex)) ∧
    checkMatchIsMatch duplicateBackPairs 0 1 = true := by
  refine ⟨by simp [checkMatchIsMatch], fun hnd => ?_, by decide⟩
  rw [show checkMatchIsMatch pairs frontIndex backIndex =
      ((pairs.getD frontIndex default).back = (pairs.getD backIndex default).back :
        Bool) from rfl]
  simp only [decide_eq_true_eq]
  have hgf : pairs.getD frontIndex default = pairs[frontIndex] := by
    simp [List.getD, List.getElem?_eq_getElem hf]
  have hgb : pairs.getD backIndex default = pairs[backIndex] := by
    simp [List.getD, List.getElem?_eq_getElem hb]
  constructor
  · intro hEq
    rw [hgf, hgb] at hEq
    exact List.getElem?_inj
      (show frontIndex < (pairs.map MatchPair.back).length by simpa using hf) hnd
      (by rw [List.getElem?_map, List.getElem?_map, List.getElem?_eq_getElem hf,
            List.getElem?_eq_getElem hb]
          simp [hEq])
  · intro hIdx
    subst hIdx
    rfl

/-- Distinct-back board used by the C4 witness. -/
def distinctBackPairs : List MatchPair :=
  [ { front := "q1".data, back := "a1".data, cardId := 20 },
    { front := "q2".data, back := "a2".data, cardId := 21 } ]

/-- Witness for the C4 amended claim on a two-pair board with distinct backs. -/
theorem checkMatch_by_back_text_witness :
    (0 : ℕ) < distinctBackPairs.length ∧ (1 : ℕ) < distinctBackPairs.length ∧
    (checkMatchIsMatch distinctBackPairs 0 1 = true ↔ (0 : ℕ) = 1) :=
  ⟨by decide, by decide,
    (checkMatch_by_back_text distinctBackPairs 0 1 (by decide) (by decide)).2.1
      (by decide)⟩

/-- Whitespace recognized by the modelled trim and token split (the ASCII
whitespace of JS trim and the regex sequence backslash-s). -/
def isWhitespaceChar (c : Char) : Bool :=
  c = ' ' || c = '\t' || c = '\n' || c = '\r' || c = '\x0b' || c = '\x0c'

/-- JS String.prototype.trim: strip leading and trailing whitespace. -/
def jsTrim (s : List Char) : List Char :=
  ((s.dropWhile isWhitespaceChar).reverse.dropWhile isWhitespaceChar).reverse

/-- JS String.prototype.toLowerCase, on the ASCII alphabet. -/
def toLower (s : List Char) : List Char := s.map Char.toLower

/-- ValidationResult record: correctness verdict and similarity in [0,1]. -/
structure ValidationResult where
  isCorrect : Bool
  similarity : ℚ
deriving DecidableEq, Repr

/-- AnswerValidation union type from src/types/index.ts. -/
inductive AnswerValidation
  | exact | caseInsensitive | typoTolerant | keyword | flexible
deriving DecidableEq, Repr

/-- AnswerValidationService.exactMatch: byte-for-byte equality. -/
def exactMatch (userAnswer correctAnswer : List Char) : ValidationResult :=
  let isCorrect : Bool := userAnswer = correctAnswer
  { isCorrect := isCorrect, similarity := if isCorrect then 1 else 0 }

/-- AnswerValidationService.caseInsensitiveMatch: equality after lowercasing. -/
def caseInsensitiveMatch (userAnswer correctAnswer : List Char) : ValidationResult :=
  let isCorrect : Bool := toLower userAnswer = toLower correctAnswer
  { isCorrect := isCorrect, similarity := if isCorrect then 1 else 0 }

/-- Inner loop of the Levenshtein dynamic program: computes the current
matrix row (positions 1..n) from the previous row, scanning str1 left to
right while carrying the diagonal, the remaining previous-row entries and
the entry just written. -/
def levRowGo (c2 : Char) : List Char → ℕ → List ℕ → ℕ → List ℕ
  | [], _, _, _ => []
  | _ :: _, _, [], _ => []
  | c1 :: cs, diag, up :: prevRest, left =>
      let cur := if c2 = c1 then diag else 1 + Nat.min diag (Nat.min left up)
      cur :: levRowGo c2 cs up prevRest cur

/-- AnswerValidationService.levenshteinDistance: the standard O(n*m) matrix
dynamic program over single-character insert, delete and substitute, row by
row; returns matrix[str2.length][str1.length]. -/
def levenshteinDistance (str1 str2 : List Char) : ℕ :=
  let row0 := List.range (str1.length + 1)
  let finalRow := (List.enumFrom 1 str2).foldl
    (fun prev (p : ℕ × Char) =>
      p.1 :: levRowGo p.2 str1 (prev.headD 0) prev.tail p.1) row0
  finalRow.getLastD 0

/-- AnswerValidationService.typoTolerantMatch: normalized Levenshtein
similarity over lowercased strings with acceptance threshold 0.85.  Callers
always pass a nonempty trimmed user answer, so maxLength >= 1. -/
def typoTolerantMatch (userAnswer correctAnswer : List Char) : ValidationResult :=
  let distance := levenshteinDistance (toLower userAnswer) (toLower correctAnswer)
  let maxLength := Nat.max userAnswer.length correctAnswer.length
  let similarity : ℚ := 1 - (distance : ℚ) / (maxLength : ℚ)
  { isCorrect := (85/100 : ℚ) ≤ similarity, similarity := similarity }

/-- The fixed stop-word set of AnswerValidationService.isCommonWord. -/
def commonWords : List (List Char) :=
  [ "the", "and", "for", "are", "but", "not", "you", "all", "can", "her",
    "was", "one", "our", "out", "day", "get", "has", "him", "his", "how",
    "its", "may", "new", "now", "old", "see", "two", "who", "boy", "did",
    "she", "too", "use", "way", "with", "this", "that", "from", "have",
    "they", "will", "what", "been", "more", "when", "your", "said", "each",
    "than", "them", "very", "were", "into", "just", "like", "some", "time"
  ].map String.data

/-- AnswerValidationService.isCommonWord. -/
def isCommonWord (word : List Char) : Bool :=
  commonWords.contains (toLower word)

/-- Split on runs of whitespace, as the regex split of keywordMatch; empty
tokens (which only arise at the boundaries and are dropped by the length
filter anyway) are not produced. -/
def splitOnWhitespace (s : List Char) : List (List Char) :=
  go s []
where
  go : List Char → List Char → List (List Char)
    | [], acc => if acc.isEmpty then [] else [acc.reverse]
    | c :: rest, acc =>
        if isWhitespaceChar c then
          if acc.isEmpty then go rest [] else acc.reverse :: go rest []
        else go rest (c :: acc)

/-- Substring containment, as JS String.prototype.includes. -/
def listIncludes (haystack needle : List Char) : Bool :=
  (List.range (haystack.length + 1)).any
    (fun i => needle.isPrefixOf (haystack.drop i))

/-- AnswerValidationService.keywordMatch: keywords are the stop-word-free
tokens of length >= 3 of the lowercased correct answer; with no keywords it
falls back to case-insensitive matching, otherwise it accepts iff at least
one keyword occurs as a substring of the lowercased user answer, with
similarity matched / total. -/
def keywordMatch (userAnswer correctAnswer : List Char) : ValidationResult :=
  let userLower := toLower userAnswer
  let correctLower := toLower correctAnswer
  let keywords := ((splitOnWhitespace correctLower).filter
      (fun word => 3 ≤ word.length)).filter (fun word => !isCommonWord word)
  if keywords.isEmpty then caseInsensitiveMatch userAnswer correctAnswer
  else
    let matchedKeywords := keywords.filter (fun keyword => listIncludes userLower keyword)
    { isCorrect := 0 < matchedKeywords.length,
      similarity := (matchedKeywords.length : ℚ) / (keywords.length : ℚ) }

/-- AnswerValidationService.flexibleMatch: case-insensitive equality first,
then typo-tolerant with threshold 0.75, then keyword; on rejection the
similarity reported is the maximum of the typo and keyword similarities. -/
def flexibleMatch (userAnswer correctAnswer : List Char) : ValidationResult :=
  if toLower userAnswer = toLower correctAnswer then
    { isCorrect := true, similarity := 1 }
  else
    let typoResult := typoTolerantMatch userAnswer correctAnswer
    if (75/100 : ℚ) ≤ typoResult.similarity then
      { isCorrect := true, similarity := typoResult.similarity }
    else
      let keywordResult := keywordMatch userAnswer correctAnswer
      if keywordResult.isCorrect then keywordResult
      else { isCorrect := false,
             similarity := max typoResult.similarity keywordResult.similarity }

/-- AnswerValidationService.validateAnswer: trims both inputs, returns
isCorrect false with similarity 0 for an empty trimmed user answer, and
otherwise dispatches on the validation type. -/
def validateAnswer (userAnswer correctAnswer : List Char)
    (validationType : AnswerValidation) : ValidationResult :=
  let trimmedUser := jsTrim userAnswer
  let trimmedCorrect := jsTrim correctAnswer
  if trimmedUser.isEmpty then { isCorrect := false, similarity := 0 }
  else
    match validationType with
    | .exact => exactMatch trimmedUser trimmedCorrect
    | .caseInsensitive => caseInsensitiveMatch trimmedUser trimmedCorrect
    | .typoTolerant => typoTolerantMatch trimmedUser trimmedCorrect
    | .keyword => keywordMatch trimmedUser trimmedCorrect
    | .flexible => flexibleMatch trimmedUser trimmedCorrect

unseal Rat.mul Rat.add Rat.sub Rat.inv in
/-- C7: validateAnswer on user "Pari" against "Paris" under typo-tolerant
yields similarity 4/5 = 1 - 1/5 and isCorrect false (threshold 0.85), while
flexible accepts the same pair (4/5 >= 0.75) with the same similarity; and
in general, for a nonempty trimmed user answer, flexible tries
case-insensitive equality first, then typo-tolerant with threshold 0.75,
then keyword, and on rejection reports the maximum of the typo-tolerant and
keyword similarities. -/
theorem validateAnswer_flexible_spec :
    validateAnswer "Pari".data "Paris".data .typoTolerant =
      { isCorrect := false, similarity := 4/5 } ∧
    validateAnswer "Pari".data "Paris".data .flexible =
      { isCorrect := true, similarity := 4/5 } ∧
    ∀ userAnswer correctAnswer : List Char,
      (jsTrim userAnswer).isEmpty = false →
      validateAnswer userAnswer correctAnswer .flexible =
        (if (caseInsensitiveMatch (jsTrim userAnswer) (jsTrim correctAnswer)).isCorrect
            = true then
          { isCorrect := true, similarity := 1 }
        else if (75/100 : ℚ) ≤
            (typoTolerantMatch (jsTrim userAnswer) (jsTrim correctAnswer)).similarity then
          { isCorrect := true,
            similarity :=
              (typoTolerantMatch (jsTrim userAnswer) (jsTrim correctAnswer)).similarity }
        else if (keywordMatch (jsTrim userAnswer) (jsTrim correctAnswer)).isCorrect
            = true then
          keywordMatch (jsTrim userAnswer) (jsTrim correctAnswer)
        else
          { isCorrect := false,
            similarity :=
              max (typoTolerantMatch (jsTrim userAnswer) (jsTrim correctAnswer)).similarity
                (keywordMatch (jsTrim userAnswer) (jsTrim correctAnswer)).similarity }) := by
  refine ⟨by decide, by decide, fun userAnswer correctAnswer h => ?_⟩
  simp only [validateAnswer, h, Bool.false_eq_true, if_false]
  by_cases heq : toLower (jsTrim userAnswer) = toLower (jsTrim correctAnswer)
  · simp [flexibleMatch, caseInsensitiveMatch, heq]
  · simp [flexibleMatch, caseInsensitiveMatch, heq]

unseal Rat.mul Rat.add Rat.sub Rat.inv in
/-- Witness for C7: the general flexible characterization applied at the
concrete pair Pari / Paris. -/
theorem validateAnswer_flexible_spec_witness :
    (jsTrim "Pari".data).isEmpty = false ∧
    validateAnswer "Pari".data "Paris".data .flexible =
      (if (caseInsensitiveMatch (jsTrim "Pari".data) (jsTrim "Paris".data)).isCorrect
          = true then
        { isCorrect := true, similarity := 1 }
      else if (75/100 : ℚ) ≤
          (typoTolerantMatch (jsTrim "Pari".data) (jsTrim "Paris".data)).similarity then
        { isCorrect := true,
          similarity :=
            (typoTolerantMatch (jsTrim "Pari".data) (jsTrim "Paris".data)).similarity }
      else if (keywordMatch (jsTrim "Pari".data) (jsTrim "Paris".data)).isCorrect
          = true then
        keywordMatch (jsTrim "Pari".data) (jsTrim "Paris".data)
      else
        { isCorrect := false,
          similarity :=
            max (typoTolerantMatch (jsTrim "Pari".data) (jsTrim "Paris".data)).similarity
              (keywordMatch (jsTrim "Pari".data) (jsTrim "Paris".data)).similarity }) :=
  ⟨by decide, validateAnswer_flexible_spec.2.2 "Pari".data "Paris".data (by decide)⟩

/-- C9: validateAnswer trims both inputs before comparing (its verdict
depends only on the trimmed inputs), and for every correct answer and every
validation type a user answer that is empty after trimming yields isCorrect
false with similarity 0. -/
theorem validateAnswer_trim_empty (userAnswer correctAnswer : List Char)
    (validationType : AnswerValidation) :
    ((jsTrim userAnswer).isEmpty = true →
      validateAnswer userAnswer correctAnswer validationType =
        { isCorrect := false, similarity := 0 }) ∧
    (∀ otherUser otherCorrect : List Char,
      jsTrim userAnswer = jsTrim otherUser →
      jsTrim correctAnswer = jsTrim otherCorrect →
      validateAnswer userAnswer correctAnswer validationType =
        validateAnswer otherUser otherCorrect validationType) := by
  constructor
  · intro h
    simp [validateAnswer, h]
  · intro otherUser otherCorrect h1 h2
    simp only [validateAnswer, h1, h2]

/-- Witness for C9: a whitespace-only answer is rejected with similarity 0,
and surrounding whitespace does not change the verdict. -/
theorem validateAnswer_trim_empty_witness :
    (jsTrim "   ".data).isEmpty = true ∧
    validateAnswer "   ".data "Paris".data .flexible =
      { isCorrect := false, similarity := 0 } ∧
    jsTrim "  Paris ".data = jsTrim "Paris".data ∧
    validateAnswer "  Paris ".data "Paris".data .exact =
      validateAnswer "Paris".data "Paris".data .exact :=
  ⟨by decide,
    (validateAnswer_trim_empty "   ".data "Paris".data .flexible).1 (by decide),
    by decide,
    (validateAnswer_trim_empty "  Paris ".data "Paris".data .exact).2
      "Paris".data "Paris".data (by decide) (by decide)⟩

/-- One step of an insertion placement driven by a random comparator, as in
the pattern array.sort of a function ignoring its arguments and returning
random() - 0.5.  Each boolean of the stream is the sign of one comparator
call: true means the comparator came out nonpositive and the existing
element keeps its place; an exhausted stream places the element (this case
is never charged in the counting arguments, which use streams at least as
long as the number of comparator calls). -/
def randInsert (x : α) : List α → List Bool → List α × List Bool
  | [], s => ([x], s)
  | y :: ys, [] => (x :: y :: ys, [])
  | y :: ys, b :: bs =>
      if b then
        let r := randInsert x ys bs
        (y :: r.1, r.2)
      else (x :: y :: ys, bs)

/-- The random-comparator sort pattern array.sort of a function returning
random() - 0.5, modelled as a stable insertion sort whose comparator signs
are drawn from the stream (ECMAScript leaves a sort with an inconsistent
comparator implementation-defined; any deterministic comparison sort obeys
the counting bound proved below). -/
def randSort (l : List α) (s : List Bool) : List α × List Bool :=
  l.foldl (fun acc x => randInsert x acc.1 acc.2) ([], s)

/-- JS Array.prototype.slice(0, e): a negative end counts from the end of
the array. -/
def jsSliceTo (l : List α) (e : ℤ) : List α :=
  if e < 0 then l.take ((l.length : ℤ) + e).toNat else l.take e.toNat

/-- AnswerValidationService.generateMultipleChoiceOptions: filter out
case-insensitive duplicates of the correct answer, shuffle (via the
random-comparator sort) and slice count - 1 wrong answers, append the
correct answer, and shuffle again.  The stream `s` supplies both shuffles'
comparator signs. -/
def generateMultipleChoiceOptions (correctAnswer : List Char)
    (allAnswers : List (List Char)) (count : ℤ) (s : List Bool) : List (List Char) :=
  let otherAnswers := allAnswers.filter
    (fun answer => !decide (toLower answer = toLower correctAnswer))
  let shuffledPair := randSort otherAnswers s
  let wrongAnswers := jsSliceTo shuffledPair.1 (count - 1)
  let options := wrongAnswers ++ [correctAnswer]
  (randSort options shuffledPair.2).1

/-- Inserting with a random comparator yields some arrangement of the new
element and the old ones. -/
theorem randInsert_perm (x : α) :
    ∀ (l : List α) (s : List Bool), (randInsert x l s).1.Perm (x :: l)
  | [], _ => by simp [randInsert]
  | _ :: _, [] => by simp [randInsert]
  | y :: ys, b :: bs => by
    by_cases hb : b
    · subst hb
      simpa [randInsert] using
        ((randInsert_perm x ys bs).cons y).trans (List.Perm.swap x y ys)
    · simp [randInsert, hb]

/-- The random-comparator sort returns an arrangement of its input for every
stream of comparator signs. -/
theorem randSort_perm (l : List α) (s : List Bool) : (randSort l s).1.Perm l := by
  suffices h : ∀ (l : List α) (acc : List α × List Bool),
      (l.foldl (fun acc x => randInsert x acc.1 acc.2) acc).1.Perm (acc.1 ++ l) by
    simpa using h l ([], s)
  intro l
  induction l with
  | nil => intro acc; simp
  | cons x xs ih =>
      intro acc
      exact (ih (randInsert x acc.1 acc.2)).trans
        (((randInsert_perm x acc.1 acc.2).append_right xs).trans List.perm_middle.symm)

/-- C8: for every correct answer, answer pool, count and comparator stream,
generateMultipleChoiceOptions contains exactly one element that is a
case-insensitive duplicate of the correct answer (namely the correct answer
itself, present exactly once); when fewer than count - 1 distractors
survive the filter the result is the correct answer together with all of
them; and an empty filtered pool yields the singleton list of the correct
answer. -/
theorem generateMultipleChoiceOptions_spec (correctAnswer : List Char)
    (allAnswers : List (List Char)) (count : ℤ) (s : List Bool) :
    (generateMultipleChoiceOptions correctAnswer allAnswers count s).countP
        (fun a => decide (toLower a = toLower correctAnswer)) = 1 ∧
    (generateMultipleChoiceOptions correctAnswer allAnswers count s).countP
        (fun a => decide (a = correctAnswer)) = 1 ∧
    (((allAnswers.filter
          (fun answer => !decide (toLower answer = toLower correctAnswer))).length : ℤ)
        < count - 1 →
      (generateMultipleChoiceOptions correctAnswer allAnswers count s).Perm
        (correctAnswer :: allAnswers.filter
          (fun answer => !decide (toLower answer = toLower correctAnswer)))) ∧
    (allAnswers.filter
        (fun answer => !decide (toLower answer = toLower correctAnswer)) = [] →
      generateMultipleChoiceOptions correctAnswer allAnswers count s =
        [correctAnswer]) := by
  have hF : ∀ a ∈ allAnswers.filter
      (fun answer => !decide (toLower answer = toLower correctAnswer)),
      ¬ toLower a = toLower correctAnswer := by
    intro a ha
    have := (List.mem_filter.mp ha).2
    simpa using this
  have hshuffled :=
    randSort_perm (allAnswers.filter
      (fun answer => !decide (toLower answer = toLower correctAnswer))) s
  have hwrong_sub : ∀ e : ℤ, ∀ a ∈ jsSliceTo (randSort (allAnswers.filter
      (fun answer => !decide (toLower answer = toLower correctAnswer))) s).1 e,
      ¬ toLower a = toLower correctAnswer := by
    intro e a ha
    have hin : a ∈ (randSort (allAnswers.filter
        (fun answer => !decide (toLower answer = toLower correctAnswer))) s).1 := by
      unfold jsSliceTo at ha
      split at ha <;> exact List.take_subset _ _ ha
    exact hF a (hshuffled.mem_iff.mp hin)
  have hout := randSort_perm
    (jsSliceTo (randSort (allAnswers.filter
        (fun answer => !decide (toLower answer = toLower correctAnswer))) s).1
        (count - 1) ++ [correctAnswer])
    (randSort (allAnswers.filter
      (fun answer => !decide (toLower answer = toLower correctAnswer))) s).2
  have houteq : generateMultipleChoiceOptions correctAnswer allAnswers count s =
      (randSort (jsSliceTo (randSort (allAnswers.filter
          (fun answer => !decide (toLower answer = toLower correctAnswer))) s).1
          (count - 1) ++ [correctAnswer])
        (randSort (allAnswers.filter
          (fun answer => !decide (toLower answer = toLower correctAnswer))) s).2).1 := rfl
  refine ⟨?_, ?_, ?_, ?_⟩
  · rw [houteq, hout.countP_eq, List.countP_append]
    have h0 : (jsSliceTo (randSort (allAnswers.filter
        (fun answer => !decide (toLower answer = toLower correctAnswer))) s).1
        (count - 1)).countP (fun a => decide (toLower a = toLower correctAnswer)) = 0 :=
      List.countP_eq_zero.mpr (fun a ha => by
        simpa using hwrong_sub (count - 1) a ha)
    simp [h0, List.countP_cons]
  · rw [houteq, hout.countP_eq, List.countP_append]
    have h0 : (jsSliceTo (randSort (allAnswers.filter
        (fun answer => !decide (toLower answer = toLower correctAnswer))) s).1
        (count - 1)).countP (fun a => decide (a = correctAnswer)) = 0 :=
      List.countP_eq_zero.mpr (fun a ha => by
        intro hc
        have : a = correctAnswer := by simpa using hc
        exact hwrong_sub (count - 1) a ha (by rw [this]))
    simp [h0, List.countP_cons]
  · intro hlen
    have hlenF : ((randSort (allAnswers.filter
        (fun answer => !decide (toLower answer = toLower correctAnswer))) s).1).length ≤
        (count - 1).toNat := by
      have := hshuffled.length_eq
      omega
    have hslice : jsSliceTo (randSort (allAnswers.filter
        (fun answer => !decide (toLower answer = toLower correctAnswer))) s).1
        (count - 1) = (randSort (allAnswers.filter
        (fun answer => !decide (toLower answer = toLower correctAnswer))) s).1 := by
      unfold jsSliceTo
      rw [if_neg (by omega), List.take_of_length_le hlenF]
    rw [hslice] at hout
    rw [houteq, hslice]
    refine hout.trans ?_
    refine ((hshuffled.append_right [correctAnswer]).trans ?_)
    simpa using (@List.perm_middle _ correctAnswer
      (allAnswers.filter
        (fun answer => !decide (toLower answer = toLower correctAnswer)))
      []).symm
  · intro hempty
    simp [generateMultipleChoiceOptions, hempty, randSort, jsSliceTo, randInsert]

/-- Witness for C8 on a pool where the filtered distractors (2) are fewer
than count - 1 = 3 and one pool entry is a case-insensitive duplicate. -/
theorem generateMultipleChoiceOptions_spec_witness :
    (generateMultipleChoiceOptions "a".data ["b".data, "A".data, "c".data] 4
        [true, false, true, false, true, false]).countP
      (fun a => decide (toLower a = toLower "a".data)) = 1 ∧
    ((["b".data, "A".data, "c".data].filter
        (fun answer => !decide (toLower answer = toLower "a".data))).length : ℤ)
      < 4 - 1 ∧
    (generateMultipleChoiceOptions "a".data ["b".data, "A".data, "c".data] 4
        [true, false, true, false, true, false]).Perm
      ("a".data :: ["b".data, "A".data, "c".data].filter
        (fun answer => !decide (toLower answer = toLower "a".data))) :=
  ⟨(generateMultipleChoiceOptions_spec "a".data ["b".data, "A".data, "c".data] 4
      [true, false, true, false, true, false]).1,
   by decide,
   (generateMultipleChoiceOptions_spec "a".data ["b".data, "A".data, "c".data] 4
      [true, false, true, false, true, false]).2.2.1 (by decide)⟩

/-- Heap of arrays: the store of card arrays; a reference is an index into
the heap, and allocation appends at a fresh reference. -/
abbrev ArrayHeap := List (List Card)

/-- Allocation of a fresh array (the spread of an existing array, or an
array literal). -/
def heapAlloc (h : ArrayHeap) (a : List Card) : ArrayHeap × ℕ := (h ++ [a], h.length)

/-- sortByDifficulty at the heap level: the source copies the argument with
a spread (a fresh allocation) and sorts the copy in place, so the fresh
reference ends up holding the sorted elements; the argument reference is
never written through. -/
def sortByDifficultyH (h : ArrayHeap) (r : ℕ) (ascending : Bool) : ArrayHeap × ℕ :=
  heapAlloc h (sortByDifficulty (h.getD r []) ascending)

/-- getStudyOrder at the heap level: every branch of the source builds its
result in a fresh array (a spread copy, the sortByDifficulty copy, or an
array literal) and never writes through the argument reference. -/
def getStudyOrderH (h : ArrayHeap) (r : ℕ) (mode : StudyMode) (now : ℤ)
    (js : List ℕ) : ArrayHeap × ℕ :=
  heapAlloc h (getStudyOrder (h.getD r []) mode now js)

/-- calculateNextReview at the state-passing level: the card store is
returned unchanged, since the source destructures the card's fields into
local variables, assigns only to those locals, and returns a fresh result
object. -/
def calculateNextReviewH (cardStore : List Card) (r : ℕ) (quality now : ℤ) :
    List Card × SM2Result :=
  (cardStore, calculateNextReview (cardStore.getD r default) quality now)

/-- C10: calculateNextReview, sortByDifficulty and getStudyOrder do not
mutate their inputs: the card store is unchanged by calculateNextReview and
its result is a fresh record computed from the input card's fields; the two
array functions leave every pre-existing array (in particular the input
array and its element order) unchanged and return a freshly allocated
reference, distinct from the input reference, holding the pure result. -/
theorem scheduler_functions_no_mutation (h : ArrayHeap) (cardStore : List Card)
    (r rc : ℕ) (ascending : Bool) (mode : StudyMode) (now quality : ℤ)
    (js : List ℕ) (hr : r < h.length) :
    ((calculateNextReviewH cardStore rc quality now).1 = cardStore ∧
     (calculateNextReviewH cardStore rc quality now).2 =
       calculateNextReview (cardStore.getD rc default) quality now) ∧
    ((sortByDifficultyH h r ascending).1.take h.length = h ∧
     (sortByDifficultyH h r ascending).2 ≠ r ∧
     (sortByDifficultyH h r ascending).1.getD r [] = h.getD r [] ∧
     (sortByDifficultyH h r ascending).1.getD (sortByDifficultyH h r ascending).2 [] =
       sortByDifficulty (h.getD r []) ascending) ∧
    ((getStudyOrderH h r mode now js).1.take h.length = h ∧
     (getStudyOrderH h r mode now js).2 ≠ r ∧
     (getStudyOrderH h r mode now js).1.getD r [] = h.getD r [] ∧
     (getStudyOrderH h r mode now js).1.getD (getStudyOrderH h r mode now js).2 [] =
       getStudyOrder (h.getD r []) mode now js) := by
  have hfreshD : ∀ a : List Card, (h ++ [a]).getD h.length [] = a := by
    intro a
    simp [List.getD, List.getElem?_concat_length]
  have holdD : ∀ a : List Card, (h ++ [a]).getD r [] = h.getD r [] := by
    intro a
    simp [List.getD, List.getElem?_append, hr]
  refine ⟨⟨rfl, rfl⟩, ⟨?_, ?_, ?_, ?_⟩, ⟨?_, ?_, ?_, ?_⟩⟩
  · exact List.take_left h _
  · exact fun hcontra => absurd (hcontra ▸ hr) (lt_irrefl r)
  · exact holdD _
  · exact hfreshD _
  · exact List.take_left h _
  · exact fun hcontra => absurd (hcontra ▸ hr) (lt_irrefl r)
  · exact holdD _
  · exact hfreshD _

/-- Witness for C10 on a two-array heap. -/
theorem scheduler_functions_no_mutation_witness :
    (0 : ℕ) < ([[matureCard], [freshCard]] : ArrayHeap).length ∧
    (sortByDifficultyH [[matureCard], [freshCard]] 0 false).2 ≠ 0 ∧
    (getStudyOrderH [[matureCard], [freshCard]] 0 .sequential 0 []).1.take 2 =
      [[matureCard], [freshCard]] ∧
    (calculateNextReviewH [matureCard] 0 4 0).1 = [matureCard] :=
  ⟨by decide,
   (scheduler_functions_no_mutation [[matureCard], [freshCard]] [matureCard]
      0 0 false .sequential 0 4 [] (by decide)).2.1.2.1,
   (scheduler_functions_no_mutation [[matureCard], [freshCard]] [matureCard]
      0 0 false .sequential 0 4 [] (by decide)).2.2.1,
   (scheduler_functions_no_mutation [[matureCard], [freshCard]] [matureCard]
      0 0 false .sequential 0 4 [] (by decide)).1.1⟩

/-- Prepending the element displaced from position k while writing x there
is an arrangement of prepending x itself. -/
theorem cons_set_perm :
    ∀ (xs : List α) (k : ℕ) (b x : α), xs[k]? = some b →
      (b :: xs.set k x).Perm (x :: xs)
  | [], k, b, x, h => by simp at h
  | y :: ys, 0, b, x, h => by
      have hb : y = b := by simpa using h
      subst hb
      simpa using List.Perm.swap x y ys
  | y :: ys, k + 1, b, x, h => by
      have ih := cons_set_perm ys k b x (by simpa using h)
      have h1 : (b :: (y :: ys).set (k + 1) x) = b :: y :: ys.set k x := by simp
      rw [h1]
      exact ((List.Perm.swap y b (ys.set k x)).trans (ih.cons y)).trans
        (List.Perm.swap x y ys)

/-- Swapping two positions yields an arrangement of the original list. -/
theorem listSwap_perm : ∀ (l : List α) (i j : ℕ), (listSwap l i j).Perm l
  | [], i, j => by simp [listSwap]
  | y :: ys, 0, 0 => by simp [listSwap]
  | y :: ys, 0, j + 1 => by
      unfold listSwap
      cases hjs : ys[j]? with
      | none => simp [hjs]
      | some b =>
          simpa [hjs] using cons_set_perm ys j b y hjs
  | y :: ys, i + 1, 0 => by
      unfold listSwap
      cases his : ys[i]? with
      | none => simp [his]
      | some a =>
          simpa [his] using cons_set_perm ys i a y his
  | y :: ys, i + 1, j + 1 => by
      have ih := listSwap_perm ys i j
      unfold listSwap at ih ⊢
      cases his : ys[i]? with
      | none => simp [his]
      | some a =>
          cases hjs : ys[j]? with
          | none => simp [his, hjs]
          | some b =>
              rw [his, hjs] at ih
              simpa [his, hjs] using ih.cons y

/-- The Fisher-Yates loop returns an arrangement of its input, whatever the
drawn indices. -/
theorem fyLoop_perm : ∀ (i : ℕ) (js : List ℕ) (l : List α), (fyLoop l i js).Perm l
  | 0, _, l => List.Perm.refl l
  | _ + 1, [], l => List.Perm.refl l
  | i + 1, j :: js, l =>
      (fyLoop_perm i js (listSwap l (i + 1) j)).trans (listSwap_perm l (i + 1) j)

/-- Positions other than the two swapped ones are untouched. -/
theorem listSwap_getElem?_ne (l : List α) (i j k : ℕ) (hki : k ≠ i) (hkj : k ≠ j) :
    (listSwap l i j)[k]? = l[k]? := by
  unfold listSwap
  split
  · rw [List.getElem?_set_ne (fun h => hkj h.symm),
      List.getElem?_set_ne (fun h => hki h.symm)]
  · rfl

/-- After the swap, position i holds what position j held. -/
theorem listSwap_getElem?_left (l : List α) (i j : ℕ)
    (hi : i < l.length) (hj : j < l.length) :
    (listSwap l i j)[i]? = l[j]? := by
  unfold listSwap
  rw [List.getElem?_eq_getElem hi, List.getElem?_eq_getElem hj]
  by_cases hij : i = j
  · subst hij
    show ((l.set i l[i]).set i l[i])[i]? = some l[i]
    rw [List.set_set]
    simp [List.getElem?_set_self', hi]
  · show ((l.set i l[j]).set j l[i])[i]? = some l[j]
    rw [List.getElem?_set_ne (fun h => hij h.symm)]
    simp [List.getElem?_set_self', hi]

/-- With valid drawn indices, the loop at index i never touches positions
above i. -/
theorem fyLoop_getElem?_stable :
    ∀ (i : ℕ) (js : List ℕ) (l : List α) (k : ℕ),
      validChoices i js = true → i < k → (fyLoop l i js)[k]? = l[k]?
  | 0, _, _, _, _, _ => rfl
  | _ + 1, [], _, _, hv, _ => by simp [validChoices] at hv
  | i + 1, j :: js, l, k, hv, hk => by
      have hparts : j ≤ i + 1 ∧ validChoices i js = true := by
        simpa [validChoices] using hv
      have hrec := fyLoop_getElem?_stable i js (listSwap l (i + 1) j) k
        hparts.2 (by omega)
      rw [show fyLoop l (i + 1) (j :: js) =
        fyLoop (listSwap l (i + 1) j) i js from rfl, hrec]
      exact listSwap_getElem?_ne l (i + 1) j k (by omega) (by omega)

/-- Lists that are arrangements of each other and agree from position m on
have take m prefixes that are arrangements of each other. -/
theorem perm_take_of_agree (l t : List α) (m : ℕ) (hperm : t.Perm l)
    (hagree : ∀ k, m ≤ k → t[k]? = l[k]?) : (t.take m).Perm (l.take m) := by
  have hdrop : t.drop m = l.drop m := List.ext_getElem? (fun n => by
    rw [List.getElem?_drop, List.getElem?_drop]
    exact hagree (m + n) (by omega))
  rw [← List.take_append_drop m t, ← List.take_append_drop m l, hdrop] at hperm
  exact (List.perm_append_right_iff _).mp hperm

/-- An element of a take m prefix sits at some index below m. -/
theorem exists_index_of_mem_take (l : List α) (m : ℕ) (x : α) (hx : x ∈ l.take m) :
    ∃ j, j < m ∧ l[j]? = some x := by
  obtain ⟨n, hn⟩ := List.mem_iff_getElem?.mp hx
  rw [List.getElem?_take] at hn
  by_cases h : n < m
  · rw [if_pos h] at hn
    exact ⟨n, h, hn⟩
  · rw [if_neg h] at hn
    cases hn

/-- Two lists that are arrangements of each other and agree at every
positive position are equal. -/
theorem eq_of_perm_of_agree_pos (l t : List α) (hperm : t.Perm l)
    (hagree : ∀ k, 0 < k → l[k]? = t[k]?) : l = t := by
  cases l with
  | nil =>
      have := hperm.length_eq
      cases t with
      | nil => rfl
      | cons b t' => simp at this
  | cons a l' =>
      cases t with
      | nil =>
          have := hperm.length_eq
          simp at this
      | cons b t' =>
          have htail : l' = t' := List.ext_getElem? (fun n => by
            simpa using hagree (n + 1) (by omega))
          subst htail
          have hms : b ::ₘ (l' : Multiset α) = a ::ₘ (l' : Multiset α) := by
            have := Multiset.coe_eq_coe.mpr hperm
            simpa using this
          have hba : b = a := (Multiset.cons_inj_left _).mp hms
          rw [hba]

/-- Existence half of Fisher-Yates uniformity: every arrangement of the
input that already agrees above position i is reached by some valid list of
drawn indices. -/
theorem fyLoop_exists :
    ∀ (i : ℕ) (l t : List α), t.Perm l → (∀ k, i < k → l[k]? = t[k]?) →
      ∃ js, validChoices i js = true ∧ fyLoop l i js = t := by
  intro i
  induction i with
  | zero =>
      intro l t hperm hagree
      exact ⟨[], rfl, eq_of_perm_of_agree_pos l t hperm hagree⟩
  | succ i ih =>
      intro l t hperm hagree
      by_cases hrange : i + 1 < l.length
      · have htlen : t.length = l.length := hperm.length_eq
        cases hti : t[i+1]? with
        | none =>
            rw [List.getElem?_eq_none_iff] at hti
            omega
        | some v =>
            have hmem : v ∈ t.take (i+2) := List.mem_iff_getElem?.mpr
              ⟨i+1, by rw [List.getElem?_take, if_pos (by omega)]; exact hti⟩
            have htake : (t.take (i+2)).Perm (l.take (i+2)) :=
              perm_take_of_agree l t (i+2) hperm
                (fun k hk => (hagree k (by omega)).symm)
            have hmem' := htake.mem_iff.mp hmem
            obtain ⟨j, hjlt, hjget⟩ := exists_index_of_mem_take l (i+2) v hmem'
            have hjl : j < l.length := by omega
            have h1 : (listSwap l (i+1) j)[i+1]? = t[i+1]? := by
              rw [listSwap_getElem?_left l (i+1) j hrange hjl, hjget, hti]
            have hperm₂ : t.Perm (listSwap l (i+1) j) :=
              hperm.trans (listSwap_perm l (i+1) j).symm
            have hagree₂ : ∀ k, i < k → (listSwap l (i+1) j)[k]? = t[k]? := by
              intro k hk
              rcases eq_or_lt_of_le (Nat.succ_le_of_lt hk) with heq | hlt
              · rw [← heq]
                exact h1
              · rw [listSwap_getElem?_ne l (i+1) j k (by omega) (by omega)]
                exact hagree k (by omega)
            obtain ⟨js, hv, hfy⟩ := ih (listSwap l (i+1) j) t hperm₂ hagree₂
            refine ⟨j :: js, ?_, hfy⟩
            simp only [validChoices, hv, Bool.and_true, decide_eq_true_eq]
            omega
      · have hid : listSwap l (i+1) (i+1) = l := by
          unfold listSwap
          rw [List.getElem?_eq_none (by omega)]
        have hagree' : ∀ k, i < k → l[k]? = t[k]? := by
          intro k hk
          rcases eq_or_lt_of_le (Nat.succ_le_of_lt hk) with heq | hlt
          · rw [← heq, List.getElem?_eq_none (by omega),
              List.getElem?_eq_none (by rw [hperm.length_eq]; omega)]
          · exact hagree k (by omega)
        obtain ⟨js, hv, hfy⟩ := ih l t hperm hagree'
        refine ⟨(i + 1) :: js, ?_, ?_⟩
        · simp only [validChoices, hv, Bool.and_true, decide_eq_true_eq]
          omega
        · rw [show fyLoop l (i+1) ((i+1) :: js) =
            fyLoop (listSwap l (i+1) (i+1)) i js from rfl, hid, hfy]

/-- Injectivity half of Fisher-Yates uniformity: on a duplicate-free list,
distinct valid lists of drawn indices produce distinct results. -/
theorem fyLoop_inj :
    ∀ (i : ℕ) (l : List α), l.Nodup → i < l.length →
      ∀ (js js' : List ℕ), validChoices i js = true → validChoices i js' = true →
      fyLoop l i js = fyLoop l i js' → js = js'
  | 0, l, _, _, [], [], _, _, _ => rfl
  | 0, _, _, _, [], _ :: _, _, hv', _ => by simp [validChoices] at hv'
  | 0, _, _, _, _ :: _, _, hv, _, _ => by simp [validChoices] at hv
  | i + 1, _, _, _, [], _, hv, _, _ => by simp [validChoices] at hv
  | i + 1, _, _, _, _ :: _, [], _, hv', _ => by simp [validChoices] at hv'
  | i + 1, l, hnd, hlen, j :: r, j' :: r', hv, hv', heq => by
      have hparts : j ≤ i + 1 ∧ validChoices i r = true := by
        simpa [validChoices] using hv
      have hparts' : j' ≤ i + 1 ∧ validChoices i r' = true := by
        simpa [validChoices] using hv'
      have heq' : fyLoop (listSwap l (i+1) j) i r =
          fyLoop (listSwap l (i+1) j') i r' := heq
      have h1 : (fyLoop (listSwap l (i+1) j) i r)[i+1]? = l[j]? := by
        rw [fyLoop_getElem?_stable i r _ (i+1) hparts.2 (by omega)]
        exact listSwap_getElem?_left l (i+1) j hlen (by omega)
      have h2 : (fyLoop (listSwap l (i+1) j') i r')[i+1]? = l[j']? := by
        rw [fyLoop_getElem?_stable i r' _ (i+1) hparts'.2 (by omega)]
        exact listSwap_getElem?_left l (i+1) j' hlen (by omega)
      rw [heq', h2] at h1
      have hjj : j = j' := List.getElem?_inj (by omega) hnd h1.symm
      subst hjj
      have hndswap : (listSwap l (i+1) j).Nodup :=
        ((listSwap_perm l (i+1) j).nodup_iff).mpr hnd
      have hlenswap : i < (listSwap l (i+1) j).length := by
        rw [(listSwap_perm l (i+1) j).length_eq]
        omega
      have htails := fyLoop_inj i (listSwap l (i+1) j) hndswap hlenswap
        r r' hparts.2 hparts'.2 heq'
      rw [htails]

/-- All comparator-sign streams of a given length, each equally likely when
the comparator is random() - 0.5. -/
def boolStreams : ℕ → List (List Bool)
  | 0 => [[]]
  | n + 1 => ((boolStreams n).map (List.cons true)) ++
      ((boolStreams n).map (List.cons false))

/-- Number of the 16 four-coin comparator streams under which
generateMultipleChoiceOptions for correct answer a over the pool b, c
returns the given ordering.  Every run consumes at most 4 comparator calls
(1 for the two-element pool shuffle, at most 3 for the three-option
shuffle), so the count over all 16 length-4 streams is 16 times the
probability of the ordering. -/
def optionOrderCount (out : List (List Char)) : ℕ :=
  ((boolStreams 4).filter
    (fun s => generateMultipleChoiceOptions "a".data ["b".data, "c".data] 4 s = out)).length

/-- C5 counterexample: the ordering of the option list returned by
generateMultipleChoiceOptions is NOT a uniform permutation: with correct
answer a and pool b, c, the ordering a-b-c occurs in 4 of the 16 equally
likely comparator-sign streams while b-c-a occurs in 2 (uniformity would
require every ordering to occur in 16/6 of them, which is not even an
integer), because the code orders the options with the biased
sort-by-random-comparator pattern rather than a Fisher-Yates shuffle. -/
theorem optionOrdering_not_uniform :
    (boolStreams 4).length = 2 ^ 4 ∧
    optionOrderCount ["a".data, "b".data, "c".data] = 4 ∧
    optionOrderCount ["b".data, "c".data, "a".data] = 2 ∧
    optionOrderCount ["a".data, "b".data, "c".data] ≠
      optionOrderCount ["b".data, "c".data, "a".data] := by
  refine ⟨rfl, by decide, by decide, by decide⟩

/-- A valid drawn-index list for loop start 0 is empty. -/
theorem validChoices_zero_eq_nil (js : List ℕ) (h : validChoices 0 js = true) :
    js = [] := by
  cases js with
  | nil => rfl
  | cons a as => simp [validChoices] at h

/-- C5 amended: the random study order IS produced by an unbiased
Fisher-Yates shuffle: for every drawn-index list the result is an
arrangement of the input, and on a duplicate-free input every target
arrangement is produced by exactly one valid drawn-index list, so uniform
independent index draws induce the uniform distribution on permutations.
The ordering of generateMultipleChoiceOptions, by contrast, uses the biased
sort-by-random-comparator pattern and is not uniform: over the 16 equally
likely four-coin streams the ordering a-b-c occurs 4 times and b-c-a twice;
indeed no algorithm driven by k fair comparator signs can weight 6 orderings
equally, since 6 never divides 2 to the k. -/
theorem getStudyOrder_random_uniform_options_biased :
    (∀ (cards : List Card) (now : ℤ) (js : List ℕ),
      (getStudyOrder cards .random now js).Perm cards) ∧
    (∀ (cards target : List Card) (now : ℤ), cards.Nodup → target.Perm cards →
      ∃! js, validChoices (cards.length - 1) js = true ∧
        getStudyOrder cards .random now js = target) ∧
    ((boolStreams 4).length = 2 ^ 4 ∧
     optionOrderCount ["a".data, "b".data, "c".data] = 4 ∧
     optionOrderCount ["b".data, "c".data, "a".data] = 2) ∧
    (∀ (k c : ℕ), 6 * c ≠ 2 ^ k) := by
  refine ⟨?_, ?_, ⟨rfl, by decide, by decide⟩, ?_⟩
  · intro cards now js
    exact fyLoop_perm _ js cards
  · intro cards target now hnd hperm
    obtain ⟨js, hv, hfy⟩ := fyLoop_exists (cards.length - 1) cards target hperm
      (fun k hk => by
        rw [List.getElem?_eq_none (by omega),
          List.getElem?_eq_none (by rw [hperm.length_eq]; omega)])
    refine ⟨js, ⟨hv, hfy⟩, ?_⟩
    rintro js' ⟨hv', hfy'⟩
    rcases Nat.eq_zero_or_pos cards.length with hzero | hpos
    · have h1 := validChoices_zero_eq_nil js' (by rw [hzero] at hv'; exact hv')
      have h2 := validChoices_zero_eq_nil js (by rw [hzero] at hv; exact hv)
      rw [h1, h2]
    · exact fyLoop_inj (cards.length - 1) cards hnd (by omega) js' js hv' hv
        (hfy'.trans hfy.symm)
  · intro k c h
    have h3 : (3 : ℕ) ∣ 2 ^ k := ⟨2 * c, by omega⟩
    obtain ⟨d, hd⟩ := Nat.Prime.dvd_of_dvd_pow Nat.prime_three h3
    omega

unseal Rat.mul Rat.add Rat.sub Rat.inv in
/-- Witness for the C5 amended claim: on the two-card deck the reversal is
reached by exactly one valid drawn-index list. -/
theorem getStudyOrder_random_uniform_options_biased_witness :
    ([matureCard, freshCard] : List Card).Nodup ∧
    ([freshCard, matureCard] : List Card).Perm [matureCard, freshCard] ∧
    (∃! js, validChoices 1 js = true ∧
      getStudyOrder [matureCard, freshCard] .random 0 js = [freshCard, matureCard]) :=
  ⟨by decide, List.Perm.swap matureCard freshCard [],
    getStudyOrder_random_uniform_options_biased.2.1 [matureCard, freshCard]
      [freshCard, matureCard] 0 (by decide) (List.Perm.swap matureCard freshCard [])⟩
